import Mathlib

/-!
Shallow embedding of the SpO2-to-Viatom / sleep-to-Dreem conversion pipeline
(`fitbit_convert.py`) and proofs about its specification.

Timestamps are modelled as epoch seconds (`Int`); `timedelta(minutes=5)` is
300 seconds and `timedelta(seconds=4)` is 4.  Python exceptions are modelled
by `Except PyErr`.  SpO2 values are taken after Python's `round(float(...))`,
so the reader operates on integers.
-/

/-- The run-time failures the Python source can raise, one constructor per
`raise`/library-exception site: the two explicit `RuntimeError`s in
`export_spo2_as_viatom` and `align_spo2_data`, the comparison of a datetime
with `None` (`TypeError`), the use of `spo2`/`bpm` before assignment in
`divide_data_to_viatom_chunks` (`NameError`), the explicit chunk-length
`RuntimeError` in `write_to_viatom_file`, `data[0]` on an empty chunk
(`IndexError`), and an out-of-range `struct.pack` argument (`struct.error`). -/
inductive PyErr where
  | noData
  | noSessions
  | typeErr
  | nameError
  | chunkTooLong
  | indexError
  | packRange
deriving DecidableEq, Repr

/-- A session `[start, end]` (Python builds it as the two-element list
`[timestamp, prev_timestamp]`). -/
abbrev Session := Int × Int

/-- A resampled record `(timestamp, spo2, bpm)` as appended by
`chunk.append((timestamp, spo2, bpm))`. -/
abbrev VRec := Int × Int × Int

/-- One value cell of the `defaultdict(lambda: [None, None])`:
optional SpO2 and optional heart rate. -/
abbrev SpO2HR := Option Int × Option Int

/-- `sorted(data.items())`: the time-indexed record list fed to the chunker. -/
abbrev SD := List (Int × SpO2HR)

/-- The filtering done by `read_csv` (lines 76-81 of the source) on rounded
SpO2 values: drop any value `< 61`, remap exactly `100` to `99`, keep the
rest unchanged.  Rows are `(timestamp, rounded value)` pairs. -/
def readCsvRows (rows : List (Int × Int)) : List (Int × Int) :=
  rows.filterMap (fun p =>
    if p.2 < 61 then none
    else if p.2 = 100 then some (p.1, 99)
    else some p)

/-- The session-building loop of `align_spo2_data` (lines 97-112), after the
first timestamp has opened the first session: `start` is the current session's
start, `prev` is `prev_timestamp`, `acc` the closed sessions so far.  A gap
strictly greater than 5 minutes (300 s) closes the current session at `prev`
and opens a new one; the final timestamp closes the last open session. -/
def segmentGo : Int → Int → List Int → List Session → List Session
  | start, prev, [], acc => acc ++ [(start, prev)]
  | start, prev, t :: r, acc =>
    if 300 < t - prev then segmentGo t t r (acc ++ [(start, prev)])
    else segmentGo start t r acc

/-- Session segmentation over the chronologically iterated SpO2 timestamps. -/
def segmentSessions : List Int → List Session
  | [] => []
  | t :: r => segmentGo t t r []

/-- The consecutive pairs of a timestamp sequence whose gap exceeds 5 minutes:
exactly the places where the source closes one session and opens the next. -/
def gapPairs (l : List Int) : List (Int × Int) :=
  (l.zip l.tail).filter (fun p => decide (300 < p.2 - p.1))

theorem segmentGo_map_fst : ∀ (rest : List Int) (start prev : Int) (acc : List Session),
    List.map Prod.fst (segmentGo start prev rest acc) =
      List.map Prod.fst acc ++ start :: List.map Prod.snd (gapPairs (prev :: rest)) := by
  intro rest
  induction rest with
  | nil => intro start prev acc; simp [segmentGo, gapPairs]
  | cons t r ih =>
    intro start prev acc
    by_cases h : 300 < t - prev
    · simp only [segmentGo, if_pos h]
      rw [ih]
      simp [gapPairs, h]
    · simp only [segmentGo, if_neg h]
      rw [ih]
      simp [gapPairs, h]

theorem lastD_shift (t prev : Int) (r : List Int) :
    (t :: r).getLast?.getD prev = r.getLast?.getD t := by
  cases r with
  | nil => rfl
  | cons a l =>
    rw [List.getLast?_cons_cons]
    cases hl : (a :: l).getLast? with
    | none => exact absurd (List.getLast?_eq_none_iff.mp hl) (List.cons_ne_nil a l)
    | some y => rfl

theorem segmentGo_map_snd : ∀ (rest : List Int) (start prev : Int) (acc : List Session),
    List.map Prod.snd (segmentGo start prev rest acc) =
      List.map Prod.snd acc ++ List.map Prod.fst (gapPairs (prev :: rest))
        ++ [List.getLastD rest prev] := by
  intro rest
  induction rest with
  | nil => intro start prev acc; simp [segmentGo, gapPairs]
  | cons t r ih =>
    intro start prev acc
    by_cases h : 300 < t - prev
    · simp only [segmentGo, if_pos h]
      rw [ih]
      simp [gapPairs, h, lastD_shift]
    · simp only [segmentGo, if_neg h]
      rw [ih]
      simp [gapPairs, h, lastD_shift]

/-- C3: for every (in particular every chronological) nonempty sequence of
SpO2 timestamps, the segmenter places a session boundary between two
consecutive samples exactly when their gap exceeds 5 minutes: the session
start timestamps are the first timestamp followed by the right-hand ends of
the `> 300 s` gaps, in input order, and the session end timestamps are the
left-hand ends of those gaps followed by the final timestamp, which closes
the last open session. -/
theorem c3_session_boundaries (t : Int) (r : List Int) :
    List.map Prod.fst (segmentSessions (t :: r)) =
      t :: List.map Prod.snd (gapPairs (t :: r)) ∧
    List.map Prod.snd (segmentSessions (t :: r)) =
      List.map Prod.fst (gapPairs (t :: r)) ++ [List.getLastD r t] := by
  constructor
  · have h := segmentGo_map_fst r t t []
    simpa [segmentSessions] using h
  · have h := segmentGo_map_snd r t t []
    simpa [segmentSessions] using h

/-- The `levels` stage-name table of `generate_dreem_hypnogram`. -/
def levelLabel (s : String) : Option String :=
  if s = "wake" then some "WAKE"
  else if s = "rem" then some "REM"
  else if s = "light" then some "Light"
  else if s = "deep" then some "Deep"
  else none

/-- `generate_dreem_hypnogram` (lines 207-216): per entry, emit
`seconds // 30` copies of the mapped label; an unrecognized level emits
nothing and produces a printed diagnostic (second component), without
failing.  Entries are `(level, seconds)` pairs. -/
def generateDreemHypnogram : List (String × Nat) → List String × List String
  | [] => ([], [])
  | item :: rest =>
    let tail := generateDreemHypnogram rest
    match levelLabel item.1 with
    | some lab => (List.replicate (item.2 / 30) lab ++ tail.1, tail.2)
    | none => (tail.1, ("Sleep stage " ++ item.1 ++ " is not recognized") :: tail.2)

/-- C9: the hypnogram is, in input order, `floor(seconds/30)` repetitions of
the mapped label for each recognized entry and nothing for an unrecognized
entry; every unrecognized entry yields one diagnostic message and the
function still returns (non-fatal); the label table is wake→WAKE, rem→REM,
light→Light, deep→Deep. -/
theorem c9_hypnogram (items : List (String × Nat)) :
    (generateDreemHypnogram items).1 =
      (items.map (fun it =>
        match levelLabel it.1 with
        | some lab => List.replicate (it.2 / 30) lab
        | none => [])).flatten ∧
    (generateDreemHypnogram items).2.length =
      (items.filter (fun it => (levelLabel it.1).isNone)).length ∧
    levelLabel "wake" = some "WAKE" ∧ levelLabel "rem" = some "REM" ∧
    levelLabel "light" = some "Light" ∧ levelLabel "deep" = some "Deep" := by
  refine ⟨?_, ?_, rfl, rfl, rfl, rfl⟩
  · induction items with
    | nil => rfl
    | cons item rest ih =>
      simp only [generateDreemHypnogram]
      cases h : levelLabel item.1 with
      | none => simpa [h] using ih
      | some lab => simpa [h] using ih
  · induction items with
    | nil => rfl
    | cons item rest ih =>
      simp only [generateDreemHypnogram]
      cases h : levelLabel item.1 with
      | none => simpa [h, List.filter] using ih
      | some lab => simpa [h, List.filter] using ih

/-- The inner `while timestamp < end_timestamp` loop of
`divide_data_to_viatom_chunks` (lines 144-150): seal the growing chunk when
it has reached 4095 records, append `(timestamp, spo2, bpm)` and advance the
grid by 4 seconds.  The loop runs at most `(endTs - ts).toNat` times (the
grid step is 4 ≥ 1), so that fuel makes the recursion structural; the
fuel-exhausted branch returns the same state as the normal loop exit. -/
def emitGridF : Nat → List (List VRec) → List VRec → Int → Int → Int → Int →
    List (List VRec) × List VRec × Int
  | 0, chunks, chunk, ts, _, _, _ => (chunks, chunk, ts)
  | fuel + 1, chunks, chunk, ts, endTs, s, b =>
    if ts < endTs then
      if 4095 ≤ chunk.length then
        emitGridF fuel (chunks ++ [chunk]) [(ts, s, b)] (ts + 4) endTs s b
      else
        emitGridF fuel chunks (chunk ++ [(ts, s, b)]) (ts + 4) endTs s b
    else (chunks, chunk, ts)

/-- The while loop with its sufficient fuel. -/
def emitGrid (chunks : List (List VRec)) (chunk : List VRec)
    (ts endTs s b : Int) : List (List VRec) × List VRec × Int :=
  emitGridF (endTs - ts).toNat chunks chunk ts endTs s b

/-- The `for i in range(len(sorted_data) - 1)` walk of one session
(lines 129-151).  The first two equations are the empty and one-element
index, where `range(len - 1)` is empty.  State mirrors the Python locals:
`lastTs` is `last_timestamp` (`none` = `None`), `sp`/`bp` are the
last-known `spo2`/`bpm` (`none` = not yet assigned; referencing them inside
`chunk.append` then raises `NameError`). -/
def walkIndex (sess : Session) : SD → List (List VRec) → List VRec →
    Option Int → Option Int → Option Int →
    Except PyErr (List (List VRec) × List VRec × Option Int × Option Int × Option Int)
  | [], chunks, chunk, lastTs, sp, bp => .ok (chunks, chunk, lastTs, sp, bp)
  | [_], chunks, chunk, lastTs, sp, bp => .ok (chunks, chunk, lastTs, sp, bp)
  | cur :: next :: rest, chunks, chunk, lastTs, sp, bp =>
    let ts := lastTs.getD cur.1
    let endTs := next.1
    let sp2 := match cur.2.1 with | some v => some v | none => sp
    let bp2 := match cur.2.2 with | some v => some v | none => bp
    if ts < sess.1 ∨ sess.2 < ts then
      walkIndex sess (next :: rest) chunks chunk lastTs sp2 bp2
    else if ts < endTs then
      match sp2, bp2 with
      | some sv, some bv =>
        let r := emitGrid chunks chunk ts endTs sv bv
        walkIndex sess (next :: rest) r.1 r.2.1 (some r.2.2) sp2 bp2
      | _, _ => .error .nameError
    else
      walkIndex sess (next :: rest) chunks chunk (some ts) sp2 bp2

/-- The `for session in sessions` loop of `divide_data_to_viatom_chunks`
(lines 128-154) plus the trailing `if chunk` (lines 155-156):
`last_timestamp` is reset to `None` for each session, the growing chunk is
sealed (if non-empty) when a session's walk completes, and `spo2`/`bpm`
persist across sessions. -/
def divideGo (sortedData : SD) : List Session → List (List VRec) → List VRec →
    Option Int → Option Int → Except PyErr (List (List VRec))
  | [], chunks, chunk, _, _ =>
    .ok (if chunk.isEmpty then chunks else chunks ++ [chunk])
  | s :: rest, chunks, chunk, sp, bp =>
    match walkIndex s sortedData chunks chunk none sp bp with
    | .error e => .error e
    | .ok (chunks2, chunk2, _, sp2, bp2) =>
      if chunk2.isEmpty then divideGo sortedData rest chunks2 chunk2 sp2 bp2
      else divideGo sortedData rest (chunks2 ++ [chunk2]) [] sp2 bp2

/-- `divide_data_to_viatom_chunks(sessions, data)` where `sortedData` is
`sorted(data.items())`. -/
def divideChunks (sessions : List Session) (sortedData : SD) :
    Except PyErr (List (List VRec)) :=
  divideGo sortedData sessions [] [] none none

/-- The timestamp fields the binary writer reads off the first record
(`data[0][0].year`, `.month`, `.day`, `.hour`, `.minute`, `.second`). -/
structure Dt where
  year : Nat
  month : Nat
  day : Nat
  hour : Nat
  minute : Nat
  second : Nat
deriving DecidableEq, Repr

/-- A record as seen by `write_to_viatom_file`: timestamp fields plus the
SpO2 and heart-rate integers. -/
abbrev WRec := Dt × Int × Int

/-- `struct.pack("<H", n)`: two little-endian bytes (the writer checks the
16-bit range before using it). -/
def pack16 (n : Nat) : List Nat := [n % 256, n / 256 % 256]

/-- `struct.pack("<I", n)`: four little-endian bytes. -/
def pack32 (n : Nat) : List Nat :=
  [n % 256, n / 256 % 256, n / 65536 % 256, n / 16777216 % 256]

/-- The 40-byte header of lines 167-183: magic `0x05 0x00`, year (uint16 LE),
month/day/hour/minute/second bytes, file size `n*5 + 40` (uint32 LE),
duration `n*4` (uint16 LE), 25 zero padding bytes.  With `n ≤ 4095` the size
and duration always fit their fields, so those two packs cannot fail. -/
def viatomHeader (dt : Dt) (n : Nat) : List Nat :=
  [5, 0] ++ pack16 dt.year ++ [dt.month, dt.day, dt.hour, dt.minute, dt.second]
    ++ pack32 (n * 5 + 40) ++ pack16 (n * 4) ++ List.replicate 25 0

/-- One 5-byte record body (lines 186-199): SpO2 `≤ 61` writes the invalid
marker `0xFF`, the heart-rate byte and `0xFF 0x00 0x00`; SpO2 `> 99` prints
a `TOOHIGH` diagnostic and writes the clamped value 99; otherwise the raw
SpO2 byte; always followed by the heart-rate byte and zero padding.
`struct.pack("<B", ...)` raises on a value outside `[0, 256)`. -/
def encodeRecord (spo2 bpm : Int) : Except PyErr (List Nat × List String) :=
  if spo2 ≤ 61 then
    if 0 ≤ bpm ∧ bpm < 256 then .ok ([255, bpm.toNat, 255, 0, 0], [])
    else .error .packRange
  else if 99 < spo2 then
    if 0 ≤ bpm ∧ bpm < 256 then
      .ok ([99, bpm.toNat, 0, 0, 0], ["TOOHIGH: " ++ toString spo2])
    else .error .packRange
  else
    if 0 ≤ spo2 ∧ spo2 < 256 then
      if 0 ≤ bpm ∧ bpm < 256 then .ok ([spo2.toNat, bpm.toNat, 0, 0, 0], [])
      else .error .packRange
    else .error .packRange

/-- The record loop of the writer: concatenated record bytes and the printed
diagnostics, in order. -/
def encodeRecords : List (Int × Int) → Except PyErr (List Nat × List String)
  | [] => .ok ([], [])
  | p :: rest =>
    match encodeRecord p.1 p.2 with
    | .error e => .error e
    | .ok (bs, dg) =>
      match encodeRecords rest with
      | .error e => .error e
      | .ok (bs2, dg2) => .ok (bs ++ bs2, dg ++ dg2)

/-- `write_to_viatom_file(data)` (lines 159-199): fails on more than 4095
records, then on an empty chunk (`data[0]`), then if a timestamp field does
not fit its fixed-width header slot; otherwise returns the bytes written and
the diagnostics printed. -/
def writeRecordsDt (data : List WRec) : Except PyErr (List Nat × List String) :=
  if 4095 < data.length then .error .chunkTooLong
  else
    match data with
    | [] => .error .indexError
    | first :: _ =>
      if first.1.year < 65536 ∧ first.1.month < 256 ∧ first.1.day < 256 ∧
          first.1.hour < 256 ∧ first.1.minute < 256 ∧ first.1.second < 256 then
        match encodeRecords (data.map (fun r => (r.2.1, r.2.2))) with
        | .error e => .error e
        | .ok (body, diags) =>
          .ok (viatomHeader first.1 data.length ++ body, diags)
      else .error .packRange

/-- Read one byte of the written output (missing positions read as 0). -/
def byteAt (bytes : List Nat) (i : Nat) : Nat := bytes.getD i 0

/-- Decode a little-endian uint16 at offset `i`. -/
def decodeU16 (bytes : List Nat) (i : Nat) : Nat :=
  byteAt bytes i + 256 * byteAt bytes (i + 1)

/-- Decode a little-endian uint32 at offset `i`. -/
def decodeU32 (bytes : List Nat) (i : Nat) : Nat :=
  byteAt bytes i + 256 * byteAt bytes (i + 1) + 65536 * byteAt bytes (i + 2)
    + 16777216 * byteAt bytes (i + 3)

/-- One assignment `data[timestamp][i] = value` on the
`defaultdict(lambda: [None, None])`, in insertion order: a later write to
the same timestamp overwrites only its own field.  `isSpo2 = true` writes
field 0, otherwise field 1. -/
def updField (isSpo2 : Bool) (t v : Int) : SD → SD
  | [] => [(t, if isSpo2 then (some v, none) else (none, some v))]
  | (k, s, b) :: rest =>
    if k = t then (k, if isSpo2 then (some v, b) else (s, some v)) :: rest
    else (k, s, b) :: updField isSpo2 t v rest

/-- The record index after both reader loops of `align_spo2_data`: the
filtered SpO2 rows write field 0, then all heart-rate entries write field 1. -/
def buildData (spo2 entries : List (Int × Int)) : SD :=
  entries.foldl (fun m p => updField false p.1 p.2 m)
    (spo2.foldl (fun m p => updField true p.1 p.2 m) [])

/-- Insert one pair into a key-sorted list. -/
def insertPairSorted (p : Int × SpO2HR) : SD → SD
  | [] => [p]
  | q :: rest => if p.1 ≤ q.1 then p :: q :: rest else q :: insertPairSorted p rest

/-- `sorted(data.items())`.  The dict's keys are distinct, so sorting by key
determines the result uniquely; an insertion sort realizes it. -/
def sortPairs (l : SD) : SD := l.foldr insertPairSorted []

/-- `align_spo2_data` (lines 66-122) on already-parsed inputs: `csvFiles` are
the per-file SpO2 `(timestamp, rounded value)` rows, `jsonFiles` the
per-file heart-rate `(timestamp, bpm)` entries, both in iteration order.
Sessions are segmented from the filtered SpO2 stream; zero sessions raise
`RuntimeError`; with no heart-rate entry at all, `last_bpm_timestamp` stays
`None` and the retention comparison raises `TypeError`; otherwise a session
is kept iff its end is strictly before the last iterated heart-rate
timestamp. -/
def align (csvFiles jsonFiles : List (List (Int × Int))) :
    Except PyErr (List Session × SD) :=
  let rows := (csvFiles.map readCsvRows).flatten
  let sessions := segmentSessions (rows.map Prod.fst)
  if sessions.isEmpty then .error .noSessions
  else
    let entries := jsonFiles.flatten
    match (entries.map Prod.fst).getLast? with
    | none => .error .typeErr
    | some lb =>
      .ok (sessions.filter (fun s => decide (s.2 < lb)), buildData rows entries)

/-- The retained sessions of `align_spo2_data`. -/
def alignSessions (csvFiles jsonFiles : List (List (Int × Int))) :
    Except PyErr (List Session) :=
  match align csvFiles jsonFiles with
  | .error e => .error e
  | .ok p => .ok p.1

/-- The `for chunk in chunks: write_to_viatom_file(chunk)` loop, given the
timestamp-field view `toDt` of the `datetime` library (epoch second to
calendar fields); the pipeline claims do not depend on its values. -/
def writeAll (toDt : Int → Dt) : List (List VRec) →
    Except PyErr (List (List Nat × List String))
  | [] => .ok []
  | c :: rest =>
    match writeRecordsDt (c.map (fun r => (toDt r.1, r.2.1, r.2.2))) with
    | .error e => .error e
    | .ok out =>
      match writeAll toDt rest with
      | .error e => .error e
      | .ok outs => .ok (out :: outs)

/-- `export_spo2_as_viatom` (lines 21-38) after file discovery: raise
"No SpO2 or heart rate data detected!" when either file list is empty, then
align, chunk (the chunker sorts the record index by key) and write. -/
def exportSpo2 (toDt : Int → Dt) (csvFiles jsonFiles : List (List (Int × Int))) :
    Except PyErr (List (List Nat × List String)) :=
  if csvFiles.isEmpty ∨ jsonFiles.isEmpty then .error .noData
  else
    match align csvFiles jsonFiles with
    | .error e => .error e
    | .ok (sessions, data) =>
      match divideChunks sessions (sortPairs data) with
      | .error e => .error e
      | .ok chunks => writeAll toDt chunks

/-- The chunk list of a successful chunker run (empty on failure). -/
def okChunks : Except PyErr (List (List VRec)) → List (List VRec)
  | .ok cs => cs
  | .error _ => []

/-- Whether the chunker run succeeded. -/
def isOkChunks : Except PyErr (List (List VRec)) → Bool
  | .ok _ => true
  | .error _ => false

/-- A fixed timestamp-field view used to close counterexamples and witnesses. -/
def dtConst : Int → Dt := fun _ => ⟨2024, 1, 1, 0, 0, 0⟩

/-- The grid loop keeps every sealed chunk and the growing chunk at
4095 records or fewer: a chunk is sealed exactly when it has reached 4095,
before the next append. -/
theorem emitGridF_len : ∀ (fuel : Nat) (chunks : List (List VRec))
    (chunk : List VRec) (ts endTs s b : Int),
    (∀ c ∈ chunks, c.length ≤ 4095) → chunk.length ≤ 4095 →
    (∀ c ∈ (emitGridF fuel chunks chunk ts endTs s b).1, c.length ≤ 4095) ∧
      (emitGridF fuel chunks chunk ts endTs s b).2.1.length ≤ 4095 := by
  intro fuel
  induction fuel with
  | zero => intro chunks chunk ts endTs s b h1 h2; exact ⟨h1, h2⟩
  | succ fuel ih =>
    intro chunks chunk ts endTs s b h1 h2
    simp only [emitGridF]
    by_cases hlt : ts < endTs
    · rw [if_pos hlt]
      by_cases hcap : 4095 ≤ chunk.length
      · rw [if_pos hcap]
        refine ih _ _ _ _ _ _ ?_ ?_
        · intro c hc
          rcases List.mem_append.mp hc with hc | hc
          · exact h1 c hc
          · simp only [List.mem_singleton] at hc
            exact hc ▸ h2
        · simp
      · rw [if_neg hcap]
        refine ih _ _ _ _ _ _ h1 ?_
        simp only [List.length_append, List.length_singleton]
        omega
    · rw [if_neg hlt]
      exact ⟨h1, h2⟩

/-- The session walk preserves the 4095-record bound on all chunks. -/
theorem walkIndex_len : ∀ (l : SD) (sess : Session) (chunks : List (List VRec))
    (chunk : List VRec) (lastTs sp bp : Option Int) out,
    walkIndex sess l chunks chunk lastTs sp bp = .ok out →
    (∀ c ∈ chunks, c.length ≤ 4095) → chunk.length ≤ 4095 →
    (∀ c ∈ out.1, c.length ≤ 4095) ∧ out.2.1.length ≤ 4095 := by
  intro l
  induction l with
  | nil =>
    intro sess chunks chunk lastTs sp bp out h h1 h2
    simp only [walkIndex] at h
    cases h
    exact ⟨h1, h2⟩
  | cons cur tail ih =>
    intro sess chunks chunk lastTs sp bp out h h1 h2
    cases tail with
    | nil =>
      simp only [walkIndex] at h
      cases h
      exact ⟨h1, h2⟩
    | cons next rest =>
      simp only [walkIndex] at h
      split at h
      · exact ih sess _ _ _ _ _ _ h h1 h2
      · split at h
        · split at h
          · next sv bv _ _ =>
            refine ih sess _ _ _ _ _ _ h ?_ ?_
            · exact (emitGridF_len _ _ _ _ _ _ _ h1 h2).1
            · exact (emitGridF_len _ _ _ _ _ _ _ h1 h2).2
          · exact absurd h (by simp)
        · exact ih sess _ _ _ _ _ _ h h1 h2

/-- The session loop preserves the 4095-record bound. -/
theorem divideGo_len : ∀ (sessions : List Session) (sortedData : SD)
    (chunks : List (List VRec)) (chunk : List VRec) (sp bp : Option Int) out,
    divideGo sortedData sessions chunks chunk sp bp = .ok out →
    (∀ c ∈ chunks, c.length ≤ 4095) → chunk.length ≤ 4095 →
    ∀ c ∈ out, c.length ≤ 4095 := by
  intro sessions
  induction sessions with
  | nil =>
    intro sortedData chunks chunk sp bp out h h1 h2
    simp only [divideGo] at h
    cases h
    split
    · exact h1
    · intro c hc
      rcases List.mem_append.mp hc with hc | hc
      · exact h1 c hc
      · simp only [List.mem_singleton] at hc
        exact hc ▸ h2
  | cons s rest ih =>
    intro sortedData chunks chunk sp bp out h h1 h2
    simp only [divideGo] at h
    split at h
    · exact absurd h (by simp)
    · next chunks2 chunk2 lt2 sp2 bp2 hwalk =>
      have hw := walkIndex_len sortedData s chunks chunk none sp bp _ hwalk h1 h2
      split at h
      · exact ih _ _ _ _ _ _ h hw.1 hw.2
      · refine ih _ _ _ _ _ _ h ?_ (by simp)
        intro c hc
        rcases List.mem_append.mp hc with hc | hc
        · exact hw.1 c hc
        · simp only [List.mem_singleton] at hc
          exact hc ▸ hw.2

/-- Every record appended by the grid loop is `(t, s, b)` for some grid point
`ts ≤ t < endTs`: a property holding of all such records and of the records
already in the state holds of the whole resulting state. -/
theorem emitGridF_inv (P : VRec → Prop) : ∀ (fuel : Nat)
    (chunks : List (List VRec)) (chunk : List VRec) (ts endTs s b : Int),
    (∀ c ∈ chunks, ∀ r ∈ c, P r) → (∀ r ∈ chunk, P r) →
    (∀ t : Int, ts ≤ t → t < endTs → P (t, s, b)) →
    (∀ c ∈ (emitGridF fuel chunks chunk ts endTs s b).1, ∀ r ∈ c, P r) ∧
      (∀ r ∈ (emitGridF fuel chunks chunk ts endTs s b).2.1, P r) := by
  intro fuel
  induction fuel with
  | zero => intro chunks chunk ts endTs s b h1 h2 hnew; exact ⟨h1, h2⟩
  | succ fuel ih =>
    intro chunks chunk ts endTs s b h1 h2 hnew
    simp only [emitGridF]
    by_cases hlt : ts < endTs
    · rw [if_pos hlt]
      have hP : P (ts, s, b) := hnew ts le_rfl hlt
      have hnew4 : ∀ t : Int, ts + 4 ≤ t → t < endTs → P (t, s, b) := by
        intro t ht
        exact hnew t (by omega)
      by_cases hcap : 4095 ≤ chunk.length
      · rw [if_pos hcap]
        refine ih _ _ _ _ _ _ ?_ ?_ hnew4
        · intro c hc
          rcases List.mem_append.mp hc with hc | hc
          · exact h1 c hc
          · simp only [List.mem_singleton] at hc
            exact hc ▸ h2
        · intro r hr
          simp only [List.mem_singleton] at hr
          exact hr ▸ hP
      · rw [if_neg hcap]
        refine ih _ _ _ _ _ _ h1 ?_ hnew4
        intro r hr
        rcases List.mem_append.mp hr with hr | hr
        · exact h2 r hr
        · simp only [List.mem_singleton] at hr
          exact hr ▸ hP
    · rw [if_neg hlt]
      exact ⟨h1, h2⟩

/-- Every record appended during one session walk has a timestamp at or after
the session start (the bounds check at the head of each interval) and
strictly before some key of the walked index (the `while` guard). -/
theorem walkIndex_inv (P : VRec → Prop) : ∀ (l : SD) (sess : Session)
    (chunks : List (List VRec)) (chunk : List VRec) (lastTs sp bp : Option Int) out,
    walkIndex sess l chunks chunk lastTs sp bp = .ok out →
    (∀ c ∈ chunks, ∀ r ∈ c, P r) → (∀ r ∈ chunk, P r) →
    (∀ (t s b : Int), sess.1 ≤ t → (∃ p ∈ l, t < p.1) → P (t, s, b)) →
    (∀ c ∈ out.1, ∀ r ∈ c, P r) ∧ (∀ r ∈ out.2.1, P r) := by
  intro l
  induction l with
  | nil =>
    intro sess chunks chunk lastTs sp bp out h h1 h2 hnew
    simp only [walkIndex] at h
    cases h
    exact ⟨h1, h2⟩
  | cons cur tail ih =>
    intro sess chunks chunk lastTs sp bp out h h1 h2 hnew
    have hnewTail : ∀ (t s b : Int), sess.1 ≤ t →
        (∃ p ∈ tail, t < p.1) → P (t, s, b) := by
      intro t s b hle ⟨p, hp, hpt⟩
      exact hnew t s b hle ⟨p, List.mem_cons_of_mem cur hp, hpt⟩
    cases tail with
    | nil =>
      simp only [walkIndex] at h
      cases h
      exact ⟨h1, h2⟩
    | cons next rest =>
      simp only [walkIndex] at h
      split at h
      · exact ih sess _ _ _ _ _ _ h h1 h2 hnewTail
      · next hbounds =>
        have hts : sess.1 ≤ lastTs.getD cur.1 ∧ lastTs.getD cur.1 ≤ sess.2 := by
          push_neg at hbounds
          exact hbounds
        split at h
        · next hlt =>
          split at h
          · next sv bv _ _ =>
            refine ih sess _ _ _ _ _ _ h ?_ ?_ hnewTail
            · refine (emitGridF_inv P _ _ _ _ _ _ _ h1 h2 ?_).1
              intro t ht hlt2
              exact hnew t sv bv (le_trans hts.1 ht)
                ⟨next, List.mem_cons_of_mem cur (List.mem_cons_self next rest), hlt2⟩
            · refine (emitGridF_inv P _ _ _ _ _ _ _ h1 h2 ?_).2
              intro t ht hlt2
              exact hnew t sv bv (le_trans hts.1 ht)
                ⟨next, List.mem_cons_of_mem cur (List.mem_cons_self next rest), hlt2⟩
          · exact absurd h (by simp)
        · exact ih sess _ _ _ _ _ _ h h1 h2 hnewTail

/-- The session loop preserves any property of the records that every grid
append establishes, independently of which session is being walked. -/
theorem divideGo_inv (P : VRec → Prop) : ∀ (sessions : List Session)
    (sortedData : SD) (chunks : List (List VRec)) (chunk : List VRec)
    (sp bp : Option Int) out,
    divideGo sortedData sessions chunks chunk sp bp = .ok out →
    (∀ c ∈ chunks, ∀ r ∈ c, P r) → (∀ r ∈ chunk, P r) →
    (∀ (t s b : Int), (∃ p ∈ sortedData, t < p.1) → P (t, s, b)) →
    ∀ c ∈ out, ∀ r ∈ c, P r := by
  intro sessions
  induction sessions with
  | nil =>
    intro sortedData chunks chunk sp bp out h h1 h2 hnew
    simp only [divideGo] at h
    cases h
    split
    · exact h1
    · intro c hc
      rcases List.mem_append.mp hc with hc | hc
      · exact h1 c hc
      · simp only [List.mem_singleton] at hc
        exact hc ▸ h2
  | cons s rest ih =>
    intro sortedData chunks chunk sp bp out h h1 h2 hnew
    simp only [divideGo] at h
    split at h
    · exact absurd h (by simp)
    · next chunks2 chunk2 lt2 sp2 bp2 hwalk =>
      have hw := walkIndex_inv P sortedData s chunks chunk none sp bp _ hwalk h1 h2
        (fun t sv bv _ hex => hnew t sv bv hex)
      split at h
      · exact ih _ _ _ _ _ _ h hw.1 hw.2 hnew
      · refine ih _ _ _ _ _ _ h ?_ (by simp) hnew
        intro c hc
        rcases List.mem_append.mp hc with hc | hc
        · exact hw.1 c hc
        · simp only [List.mem_singleton] at hc
          exact hc ▸ hw.2

/-- Consecutive records 4 seconds apart. -/
def FourChain (c : List VRec) : Prop :=
  List.Chain' (fun a b : VRec => b.1 = a.1 + 4) c

/-- The grid loop appends consecutive grid points, so every chunk it touches
stays a 4-second chain, and the last record of the growing chunk is always
4 seconds behind the next grid position. -/
theorem emitGridF_chain : ∀ (fuel : Nat) (chunks : List (List VRec))
    (chunk : List VRec) (ts endTs s b : Int),
    (∀ c ∈ chunks, FourChain c) → FourChain chunk →
    (∀ lr, chunk.getLast? = some lr → lr.1 + 4 = ts) →
    (∀ c ∈ (emitGridF fuel chunks chunk ts endTs s b).1, FourChain c) ∧
      FourChain (emitGridF fuel chunks chunk ts endTs s b).2.1 ∧
      (∀ lr, (emitGridF fuel chunks chunk ts endTs s b).2.1.getLast? = some lr →
        lr.1 + 4 = (emitGridF fuel chunks chunk ts endTs s b).2.2) := by
  intro fuel
  induction fuel with
  | zero => intro chunks chunk ts endTs s b h1 h2 h3; exact ⟨h1, h2, h3⟩
  | succ fuel ih =>
    intro chunks chunk ts endTs s b h1 h2 h3
    simp only [emitGridF]
    by_cases hlt : ts < endTs
    · rw [if_pos hlt]
      by_cases hcap : 4095 ≤ chunk.length
      · rw [if_pos hcap]
        refine ih _ _ _ _ _ _ ?_ ?_ ?_
        · intro c hc
          rcases List.mem_append.mp hc with hc | hc
          · exact h1 c hc
          · simp only [List.mem_singleton] at hc
            exact hc ▸ h2
        · exact List.chain'_singleton _
        · intro lr hlr
          simp only [List.getLast?_singleton, Option.some.injEq] at hlr
          rw [hlr.symm]
      · rw [if_neg hcap]
        refine ih _ _ _ _ _ _ h1 ?_ ?_
        · rw [FourChain, List.chain'_append]
          refine ⟨h2, List.chain'_singleton _, ?_⟩
          intro x hx y hy
          simp only [List.head?_cons, Option.mem_def, Option.some.injEq] at hy
          have := h3 x hx
          rw [hy.symm]
          omega
        · intro lr hlr
          rw [List.getLast?_concat] at hlr
          cases hlr
          rfl
    · rw [if_neg hlt]
      exact ⟨h1, h2, h3⟩

/-- Within one session walk, all chunks stay 4-second chains: the growing
chunk resumes exactly at `last_timestamp`, which is 4 seconds after its last
record (or the chunk is empty when `last_timestamp` is `None`). -/
theorem walkIndex_chain : ∀ (l : SD) (sess : Session)
    (chunks : List (List VRec)) (chunk : List VRec) (lastTs sp bp : Option Int) out,
    walkIndex sess l chunks chunk lastTs sp bp = .ok out →
    (∀ c ∈ chunks, FourChain c) → FourChain chunk →
    (lastTs = none → chunk = []) →
    (∀ t, lastTs = some t → ∀ lr, chunk.getLast? = some lr → lr.1 + 4 = t) →
    (∀ c ∈ out.1, FourChain c) ∧ FourChain out.2.1 := by
  intro l
  induction l with
  | nil =>
    intro sess chunks chunk lastTs sp bp out h h1 h2 h3 h4
    simp only [walkIndex] at h
    cases h
    exact ⟨h1, h2⟩
  | cons cur tail ih =>
    intro sess chunks chunk lastTs sp bp out h h1 h2 h3 h4
    cases tail with
    | nil =>
      simp only [walkIndex] at h
      cases h
      exact ⟨h1, h2⟩
    | cons next rest =>
      have hlink : ∀ lr, chunk.getLast? = some lr → lr.1 + 4 = lastTs.getD cur.1 := by
        intro lr hlr
        cases hl : lastTs with
        | none =>
          rw [h3 hl] at hlr
          cases hlr
        | some t =>
          rw [Option.getD_some]
          exact h4 t hl lr hlr
      simp only [walkIndex] at h
      split at h
      · exact ih sess _ _ _ _ _ _ h h1 h2 h3 h4
      · split at h
        · split at h
          · next sv bv _ _ =>
            have he := emitGridF_chain ((next.1 - lastTs.getD cur.1).toNat) chunks
              chunk (lastTs.getD cur.1) next.1 sv bv h1 h2 hlink
            refine ih sess _ _ _ _ _ _ h he.1 he.2.1 (by simp) ?_
            intro t ht lr hlr
            simp only [Option.some.injEq] at ht
            rw [ht.symm]
            exact he.2.2 lr hlr
          · exact absurd h (by simp)
        · refine ih sess _ _ _ _ _ _ h h1 h2 (by simp) ?_
          intro t ht lr hlr
          simp only [Option.some.injEq] at ht
          rw [ht.symm]
          exact hlink lr hlr

/-- The session loop seals the growing chunk between sessions, so all chunks
it produces are 4-second chains. -/
theorem divideGo_chain : ∀ (sessions : List Session) (sortedData : SD)
    (chunks : List (List VRec)) (sp bp : Option Int) out,
    divideGo sortedData sessions chunks [] sp bp = .ok out →
    (∀ c ∈ chunks, FourChain c) → ∀ c ∈ out, FourChain c := by
  intro sessions
  induction sessions with
  | nil =>
    intro sortedData chunks sp bp out h h1
    simp only [divideGo, List.isEmpty_nil, if_pos] at h
    cases h
    exact h1
  | cons s rest ih =>
    intro sortedData chunks sp bp out h h1
    simp only [divideGo] at h
    split at h
    · exact absurd h (by simp)
    · next chunks2 chunk2 lt2 sp2 bp2 hwalk =>
      have hw := walkIndex_chain sortedData s chunks [] none sp bp _ hwalk h1
        (List.chain'_nil) (fun _ => rfl) (by intro t ht; cases ht)
      split at h
      · next hemp =>
        rw [List.isEmpty_iff] at hemp
        rw [hemp] at h
        exact ih _ _ _ _ _ h hw.1
      · refine ih _ _ _ _ _ h ?_
        intro c hc
        rcases List.mem_append.mp hc with hc | hc
        · exact hw.1 c hc
        · simp only [List.mem_singleton] at hc
          exact hc ▸ hw.2

/-- In a strictly key-sorted index every key is at most the last key. -/
theorem sorted_key_le_getLast : ∀ (l : SD) (last : Int × SpO2HR),
    List.Chain' (fun a b : Int × SpO2HR => a.1 < b.1) l →
    l.getLast? = some last → ∀ p ∈ l, p.1 ≤ last.1 := by
  intro l
  induction l with
  | nil => intro last _ h; cases h
  | cons x tail ih =>
    intro last hch hlast p hp
    cases tail with
    | nil =>
      simp only [List.getLast?_singleton, Option.some.injEq] at hlast
      simp only [List.mem_singleton] at hp
      rw [hp, hlast]
    | cons y r =>
      rw [List.getLast?_cons_cons] at hlast
      have hch2 := (List.chain'_cons.mp hch)
      rcases List.mem_cons.mp hp with hp | hp
      · have hy : y.1 ≤ last.1 :=
          ih last hch2.2 hlast y (List.mem_cons_self y r)
        rw [hp]
        omega
      · exact ih last hch2.2 hlast p hp

/-- A one-element index makes `range(len(sorted_data) - 1)` empty, so the
walk of each session is a no-op. -/
theorem divideGo_singleton : ∀ (sessions : List Session) (x : Int × SpO2HR)
    (sp bp : Option Int), divideGo [x] sessions [] [] sp bp = .ok [] := by
  intro sessions
  induction sessions with
  | nil => intro x sp bp; rfl
  | cons s rest ih => intro x sp bp; exact ih x sp bp

/-- A bound on every chunk bounds the total record count. -/
theorem sum_le_chunks_mul : ∀ (cs : List (List VRec)),
    (∀ c ∈ cs, c.length ≤ 4095) →
    (List.map List.length cs).sum ≤ cs.length * 4095 := by
  intro cs
  induction cs with
  | nil => intro _; simp
  | cons c rest ih =>
    intro h
    simp only [List.map_cons, List.sum_cons, List.length_cons]
    have h1 := h c (List.mem_cons_self c rest)
    have h2 := ih (fun d hd => h d (List.mem_cons_of_mem c hd))
    calc c.length + (List.map List.length rest).sum
        ≤ 4095 + rest.length * 4095 := by omega
      _ = (rest.length + 1) * 4095 := by ring

/-- C1: every chunk produced by `divide_data_to_viatom_chunks` holds at most
4095 records; when a single session's resampling yields more than 4095
records in total, the output is split into at least two chunks; and
`write_to_viatom_file` fails on any chunk longer than 4095 records. -/
theorem c1_chunk_cap :
    (∀ (sessions : List Session) (sd : SD) out,
      divideChunks sessions sd = .ok out → ∀ c ∈ out, c.length ≤ 4095) ∧
    (∀ (s : Session) (sd : SD) out,
      divideChunks [s] sd = .ok out →
      4095 < (List.map List.length out).sum → 2 ≤ out.length) ∧
    (∀ data : List WRec, 4095 < data.length →
      writeRecordsDt data = .error .chunkTooLong) := by
  refine ⟨?_, ?_, ?_⟩
  · intro sessions sd out h
    exact divideGo_len sessions sd [] [] none none out h (by simp) (by simp)
  · intro s sd out h hsum
    have hcap : ∀ c ∈ out, c.length ≤ 4095 :=
      divideGo_len [s] sd [] [] none none out h (by simp) (by simp)
    have := sum_le_chunks_mul out hcap
    by_contra hlt
    have : out.length ≤ 1 := by omega
    have : (List.map List.length out).sum ≤ 4095 := by
      calc (List.map List.length out).sum ≤ out.length * 4095 :=
        sum_le_chunks_mul out hcap
      _ ≤ 1 * 4095 := Nat.mul_le_mul_right 4095 this
      _ = 4095 := by norm_num
    omega
  · intro data hlen
    simp only [writeRecordsDt, if_pos hlen]

/-- C1 witness: a 4096-record chunk is rejected by the writer. -/
theorem c1_chunk_cap_witness :
    writeRecordsDt (List.replicate 4096 (⟨2024, 1, 1, 0, 0, 0⟩, 95, 70)) =
      .error .chunkTooLong :=
  c1_chunk_cap.2.2 (List.replicate 4096 (⟨2024, 1, 1, 0, 0, 0⟩, 95, 70))
    (by rw [List.length_replicate]; omega)

/-- C8: within every chunk produced by `divide_data_to_viatom_chunks`,
consecutive records are exactly 4 seconds apart; other spacing can occur
only across chunk boundaries (session ends and the 4095-record cap start a
new chunk). -/
theorem c8_four_second_chunks (sessions : List Session) (sd : SD)
    (out : List (List VRec)) (h : divideChunks sessions sd = .ok out) :
    ∀ c ∈ out, List.Chain' (fun a b : VRec => b.1 = a.1 + 4) c := by
  exact divideGo_chain sessions sd [] none none out h (by simp)

/-- C8 witness: a concrete run whose single chunk is a 4-second chain. -/
theorem c8_four_second_chunks_witness :
    List.Chain' (fun a b : VRec => b.1 = a.1 + 4)
      [((0 : Int), (70 : Int), (80 : Int)), (4, 70, 80)] :=
  c8_four_second_chunks [((0 : Int), (8 : Int))]
    [(0, (some 70, some 80)), (8, (some 71, none))]
    [[(0, 70, 80), (4, 70, 80)]] rfl
    [(0, 70, 80), (4, 70, 80)] (List.mem_singleton.mpr rfl)

/-- C10: under the sortedness that `sorted(data.items())` guarantees, every
emitted record's timestamp is strictly below the greatest timestamp of the
record index (the `while` guard stops strictly before the next key, and
`range(len - 1)` never starts an interval at the last key); when the index
holds exactly one timestamp there are no intervals at all, so no chunks are
produced, and writing no chunks writes no file. -/
theorem c10_strict_upper_bound :
    (∀ (sd : SD) (sessions : List Session) out (last : Int × SpO2HR),
      List.Chain' (fun a b : Int × SpO2HR => a.1 < b.1) sd →
      divideChunks sessions sd = .ok out → sd.getLast? = some last →
      ∀ c ∈ out, ∀ r ∈ c, r.1 < last.1) ∧
    (∀ (x : Int × SpO2HR) (sessions : List Session),
      divideChunks sessions [x] = .ok []) ∧
    (∀ toDt, writeAll toDt [] = .ok []) := by
  refine ⟨?_, ?_, fun _ => rfl⟩
  · intro sd sessions out last hsort h hlast
    refine divideGo_inv (fun r => r.1 < last.1) sessions sd [] [] none none out h
      (by simp) (by simp) ?_
    intro t s b ⟨p, hp, htp⟩
    have := sorted_key_le_getLast sd last hsort hlast p hp
    omega
  · intro x sessions
    exact divideGo_singleton sessions x none none

/-- C10 witness: on a sorted two-key index both emitted records stay below
the last key 8, and a one-key index yields no chunks. -/
theorem c10_strict_upper_bound_witness :
    ((4 : Int), (70 : Int), (80 : Int)).1 < (8 : Int) ∧
    divideChunks [((0 : Int), (60 : Int))] [(5, (some 70, some 80))] = .ok [] := by
  constructor
  · exact c10_strict_upper_bound.1
      [((0 : Int), ((some 70 : Option Int), (some 80 : Option Int))),
        (8, (some 71, none))]
      [((0 : Int), (8 : Int))]
      [[(0, 70, 80), (4, 70, 80)]]
      (8, (some 71, none))
      (by simp [List.chain'_cons]) rfl rfl
      [(0, 70, 80), (4, 70, 80)] (List.mem_singleton.mpr rfl)
      ((4 : Int), (70 : Int), (80 : Int)) (by simp)
  · exact c10_strict_upper_bound.2.1 (5, (some 70, some 80)) [((0 : Int), (60 : Int))]

set_option maxRecDepth 100000 in
/-- C4 counterexample: session `[0, 60]` over the index with keys 0, 60, 400
(SpO2 at 0 and 60, a heart-rate-only key at 400).  The interval that starts
at the session end 60 passes the bounds check, and the grid walk then emits
records up to the next key 400, i.e. records with timestamps strictly after
the session end, on a run that completes successfully. -/
theorem c4_counterexample :
    isOkChunks (divideChunks [((0 : Int), (60 : Int))]
      [(0, (some 70, some 80)), (60, (some 71, none)), (400, (none, some 80))]) = true ∧
    ∃ c ∈ okChunks (divideChunks [((0 : Int), (60 : Int))]
      [(0, (some 70, some 80)), (60, (some 71, none)), (400, (none, some 80))]),
      ∃ r ∈ c, (60 : Int) < r.1 := by
  constructor
  · rfl
  · decide

/-- C4 (amended): for a retained session, every record emitted while walking
it has a timestamp at or after the session start; the upper bound holds only
for the timestamp that starts an inter-key interval, so emitted records may
exceed the session end by up to the gap to the next index key. -/
theorem c4_amended_lower_bound : ∀ (s : Session) (sd : SD) out,
    divideChunks [s] sd = .ok out → ∀ c ∈ out, ∀ r ∈ c, s.1 ≤ r.1 := by
  intro s sd out h
  rw [divideChunks] at h
  cases hwr : walkIndex s sd [] [] none none none with
  | error e =>
    simp only [divideGo, hwr] at h
    exact Except.noConfusion h
  | ok res =>
    obtain ⟨chunks2, chunk2, lt2, sp2, bp2⟩ := res
    have hw := walkIndex_inv (fun r => s.1 ≤ r.1) sd s [] [] none none none _
      hwr (by simp) (by simp) (fun t sv bv hle _ => hle)
    simp only [divideGo, hwr] at h
    by_cases hemp : chunk2.isEmpty = true
    · simp only [hemp, if_pos, List.isEmpty_nil] at h
      cases h
      exact hw.1
    · simp only [hemp, if_neg, if_false, List.isEmpty_nil, if_pos] at h
      cases h
      intro c hc
      rcases List.mem_append.mp hc with hc | hc
      · exact hw.1 c hc
      · simp only [List.mem_singleton] at hc
        exact hc ▸ hw.2

/-- C4 witness: a concrete single-session run; both records of its chunk are
at or after the session start 0. -/
theorem c4_amended_lower_bound_witness :
    (0 : Int) ≤ ((4 : Int), (70 : Int), (80 : Int)).1 :=
  c4_amended_lower_bound ((0 : Int), (8 : Int))
    [(0, (some 70, some 80)), (8, (some 71, none))]
    [[(0, 70, 80), (4, 70, 80)]] rfl
    [(0, 70, 80), (4, 70, 80)] (List.mem_singleton.mpr rfl)
    ((4 : Int), (70 : Int), (80 : Int)) (by simp)

/-- C5: for every non-empty chunk the writer accepts, decoding the written
header reproduces the first record's year, month, day, hour, minute and
second exactly, the little-endian uint32 at offset 9 equals
`record_count*5 + 40`, and the little-endian uint16 at offset 13 equals
`record_count*4`. -/
theorem c5_header_roundtrip : ∀ (first : WRec) (rest : List WRec)
    (bytes : List Nat) (diags : List String),
    writeRecordsDt (first :: rest) = .ok (bytes, diags) →
    decodeU16 bytes 2 = first.1.year ∧
    byteAt bytes 4 = first.1.month ∧ byteAt bytes 5 = first.1.day ∧
    byteAt bytes 6 = first.1.hour ∧ byteAt bytes 7 = first.1.minute ∧
    byteAt bytes 8 = first.1.second ∧
    decodeU32 bytes 9 = (rest.length + 1) * 5 + 40 ∧
    decodeU16 bytes 13 = (rest.length + 1) * 4 := by
  intro first rest bytes diags h
  simp only [writeRecordsDt] at h
  split at h
  · exact Except.noConfusion h
  · next hlen =>
    split at h
    · next hfields =>
      split at h
      · exact Except.noConfusion h
      · next body diags2 henc =>
        simp only [List.length_cons] at h
        cases h
        have hn : rest.length + 1 ≤ 4095 := by
          simp only [List.length_cons] at hlen
          omega
        have hy := hfields.1
        refine ⟨?_, rfl, rfl, rfl, rfl, rfl, ?_, ?_⟩
        · have e2 : decodeU16 (viatomHeader first.1 (rest.length + 1) ++ body) 2 =
              first.1.year % 256 + 256 * (first.1.year / 256 % 256) := rfl
          rw [e2]
          omega
        · have e9 : decodeU32 (viatomHeader first.1 (rest.length + 1) ++ body) 9 =
              ((rest.length + 1) * 5 + 40) % 256
                + 256 * (((rest.length + 1) * 5 + 40) / 256 % 256)
                + 65536 * (((rest.length + 1) * 5 + 40) / 65536 % 256)
                + 16777216 * (((rest.length + 1) * 5 + 40) / 16777216 % 256) := rfl
          rw [e9]
          have h1 : ((rest.length + 1) * 5 + 40) / 65536 = 0 :=
            Nat.div_eq_of_lt (by omega)
          have h2 : ((rest.length + 1) * 5 + 40) / 16777216 = 0 :=
            Nat.div_eq_of_lt (by omega)
          rw [h1, h2]
          omega
        · have e13 : decodeU16 (viatomHeader first.1 (rest.length + 1) ++ body) 13 =
              ((rest.length + 1) * 4) % 256
                + 256 * (((rest.length + 1) * 4) / 256 % 256) := rfl
          rw [e13]
          omega
    · exact Except.noConfusion h

/-- C5 witness: a one-record chunk; the written header decodes back to the
record's timestamp fields, size 45 and duration 4. -/
theorem c5_header_roundtrip_witness :
    decodeU16 (viatomHeader ⟨2024, 3, 5, 1, 2, 3⟩ 1 ++ [95, 70, 0, 0, 0]) 2 = 2024 ∧
    byteAt (viatomHeader ⟨2024, 3, 5, 1, 2, 3⟩ 1 ++ [95, 70, 0, 0, 0]) 4 = 3 ∧
    byteAt (viatomHeader ⟨2024, 3, 5, 1, 2, 3⟩ 1 ++ [95, 70, 0, 0, 0]) 5 = 5 ∧
    byteAt (viatomHeader ⟨2024, 3, 5, 1, 2, 3⟩ 1 ++ [95, 70, 0, 0, 0]) 6 = 1 ∧
    byteAt (viatomHeader ⟨2024, 3, 5, 1, 2, 3⟩ 1 ++ [95, 70, 0, 0, 0]) 7 = 2 ∧
    byteAt (viatomHeader ⟨2024, 3, 5, 1, 2, 3⟩ 1 ++ [95, 70, 0, 0, 0]) 8 = 3 ∧
    decodeU32 (viatomHeader ⟨2024, 3, 5, 1, 2, 3⟩ 1 ++ [95, 70, 0, 0, 0]) 9 = 45 ∧
    decodeU16 (viatomHeader ⟨2024, 3, 5, 1, 2, 3⟩ 1 ++ [95, 70, 0, 0, 0]) 13 = 4 :=
  c5_header_roundtrip (⟨2024, 3, 5, 1, 2, 3⟩, 95, 70) []
    (viatomHeader ⟨2024, 3, 5, 1, 2, 3⟩ 1 ++ [95, 70, 0, 0, 0]) [] rfl

/-- C6 counterexample: the rounded value 61 lies strictly between 60 and 100
and is retained by the reader unchanged, but the writer serializes it as the
invalid marker `0xFF`, not as 61: values of exactly 61 do not pass through
to the serialized output. -/
theorem c6_counterexample :
    ((0 : Int), (61 : Int)) ∈ readCsvRows [((0 : Int), (61 : Int))] ∧
    encodeRecord 61 80 = .ok ([255, 80, 255, 0, 0], []) ∧ (255 : Nat) ≠ 61 := by
  refine ⟨?_, rfl, by decide⟩
  simp [readCsvRows]

/-- C6 (amended): every value the reader retains is at least 61 and a
rounded value of at most 60 is dropped (61 is the lowest retained value); a
retained value other than 100 passes through the reader unchanged, and
exactly 100 is remapped to 99; a value strictly between 61 and 100 is
serialized as its raw byte; a value above 99 reaching the writer is clamped
to 99 with a non-fatal `TOOHIGH` diagnostic; a value of at most 61 reaching
the writer is serialized as the invalid marker `0xFF`, not as itself. -/
theorem c6_spo2_values :
    (∀ (rows : List (Int × Int)) p, p ∈ readCsvRows rows → 61 ≤ p.2) ∧
    (∀ (rows : List (Int × Int)) (t v : Int), (t, v) ∈ rows → 61 ≤ v → v ≠ 100 →
      (t, v) ∈ readCsvRows rows) ∧
    (∀ (rows : List (Int × Int)) (t : Int), (t, (100 : Int)) ∈ rows →
      (t, (99 : Int)) ∈ readCsvRows rows) ∧
    (∀ s b : Int, 61 < s → s ≤ 99 → 0 ≤ b → b < 256 →
      encodeRecord s b = .ok ([s.toNat, b.toNat, 0, 0, 0], [])) ∧
    (∀ s b : Int, 99 < s → 0 ≤ b → b < 256 →
      encodeRecord s b = .ok ([99, b.toNat, 0, 0, 0], ["TOOHIGH: " ++ toString s])) ∧
    (∀ s b : Int, s ≤ 61 → 0 ≤ b → b < 256 →
      encodeRecord s b = .ok ([255, b.toNat, 255, 0, 0], [])) := by
  refine ⟨?_, ?_, ?_, ?_, ?_, ?_⟩
  · intro rows p hp
    simp only [readCsvRows, List.mem_filterMap] at hp
    obtain ⟨q, hq, hval⟩ := hp
    by_cases h1 : q.2 < 61
    · rw [if_pos h1] at hval
      cases hval
    · rw [if_neg h1] at hval
      by_cases h2 : q.2 = 100
      · rw [if_pos h2] at hval
        cases hval
        omega
      · rw [if_neg h2] at hval
        cases hval
        omega
  · intro rows t v hmem hge hne
    simp only [readCsvRows, List.mem_filterMap]
    refine ⟨(t, v), hmem, ?_⟩
    rw [if_neg (by omega), if_neg (by simpa using hne)]
  · intro rows t hmem
    simp only [readCsvRows, List.mem_filterMap]
    refine ⟨(t, 100), hmem, ?_⟩
    rw [if_neg (by omega), if_pos rfl]
  · intro s b h1 h2 h3 h4
    rw [encodeRecord, if_neg (by omega), if_neg (by omega),
      if_pos (by constructor <;> omega), if_pos (by constructor <;> omega)]
  · intro s b h1 h2 h3
    rw [encodeRecord, if_neg (by omega), if_pos (by omega),
      if_pos (by constructor <;> omega)]
  · intro s b h1 h2 h3
    rw [encodeRecord, if_pos h1, if_pos (by constructor <;> omega)]

/-- C6 witness: 62 is retained by the reader and serialized unchanged; 100
reaches the writer as 99 after the reader's remap. -/
theorem c6_spo2_values_witness :
    encodeRecord 62 80 = .ok ([62, 80, 0, 0, 0], []) ∧
    ((0 : Int), (99 : Int)) ∈ readCsvRows [((0 : Int), (100 : Int))] := by
  constructor
  · exact c6_spo2_values.2.2.2.1 62 80 (by omega) (by omega) (by omega) (by omega)
  · exact c6_spo2_values.2.2.1 [((0 : Int), (100 : Int))] 0 (by simp)

/-- C2 counterexample: heart-rate entries iterated in the order
`(100, 80), (50, 80)` (the glob/JSON order is not guaranteed chronological).
The single SpO2 session `[0, 60]` ends strictly before the maximum
heart-rate timestamp 100, so the claim says it is retained, but the code
compares against the last-iterated timestamp 50 and drops it. -/
theorem c2_counterexample :
    segmentSessions (List.map Prod.fst
      (readCsvRows [((0 : Int), (70 : Int)), (60, 70)])) = [(0, 60)] ∧
    alignSessions [[((0 : Int), (70 : Int)), (60, 70)]]
      [[((100 : Int), (80 : Int)), (50, 80)]] = .ok [] ∧
    (100 : Int) ∈ List.map Prod.fst [((100 : Int), (80 : Int)), (50, 80)] ∧
    (60 : Int) < 100 :=
  ⟨rfl, rfl, by decide, by decide⟩

/-- C2 (amended): a session is retained by `align_spo2_data` if and only if
its end timestamp is strictly less than the timestamp of the *last
heart-rate entry in iteration order* (which is the maximum only when the
heart-rate input is chronologically ordered). -/
theorem c2_retention_amended : ∀ (c j : List (List (Int × Int))) sess,
    alignSessions c j = .ok sess → ∀ s : Session,
    (s ∈ sess ↔
      s ∈ segmentSessions (List.map Prod.fst ((c.map readCsvRows).flatten)) ∧
      ∃ lb, ((j.flatten).map Prod.fst).getLast? = some lb ∧ s.2 < lb) := by
  intro c j sess h s
  simp only [alignSessions] at h
  cases ha : align c j with
  | error e =>
    rw [ha] at h
    exact Except.noConfusion h
  | ok p =>
    rw [ha] at h
    simp only [Except.ok.injEq] at h
    simp only [align] at ha
    split at ha
    · exact Except.noConfusion ha
    · split at ha
      · exact Except.noConfusion ha
      · next lb hlast =>
        simp only [Except.ok.injEq] at ha
        rw [← h, ← ha]
        simp only [List.mem_filter, hlast, Option.some.injEq, decide_eq_true_eq]
        constructor
        · intro ⟨hm, hlt⟩
          exact ⟨hm, lb, rfl, hlt⟩
        · intro ⟨hm, lb2, hlb2, hlt⟩
          exact ⟨hm, hlb2 ▸ hlt⟩

/-- C2 witness: with chronologically ordered heart-rate entries the amended
retention holds at the concrete session `[0, 60]`. -/
theorem c2_retention_witness :
    ((0 : Int), (60 : Int)) ∈ [((0 : Int), (60 : Int))] ↔
      ((0 : Int), (60 : Int)) ∈ segmentSessions (List.map Prod.fst
        (([[((0 : Int), (70 : Int)), (60, 70)]].map readCsvRows).flatten)) ∧
      ∃ lb, (([[((50 : Int), (80 : Int)), (100, 80)]].flatten).map
        Prod.fst).getLast? = some lb ∧ ((0 : Int), (60 : Int)).2 < lb :=
  c2_retention_amended [[((0 : Int), (70 : Int)), (60, 70)]]
    [[((50 : Int), (80 : Int)), (100, 80)]] [((0 : Int), (60 : Int))] rfl
    ((0 : Int), (60 : Int))

/-- The session builder returns at least one session on nonempty input. -/
theorem segmentSessions_ne_nil (t : Int) (r : List Int) :
    segmentSessions (t :: r) ≠ [] := by
  intro hcontra
  have hfst := segmentGo_map_fst r t t []
  rw [show segmentGo t t r [] = segmentSessions (t :: r) from rfl, hcontra] at hfst
  simp at hfst

/-- C7 counterexample: one SpO2 file with zero rows and one heart-rate file
with one entry.  The input contains no SpO2 rows at all, yet the pipeline
does not fail with the "no data detected" condition: the file-count check
passes and the run fails later with "no sessions detected". -/
theorem c7_counterexample :
    exportSpo2 dtConst [[]] [[((0 : Int), (80 : Int))]] = .error .noSessions ∧
    PyErr.noSessions ≠ PyErr.noData ∧
    readCsvRows [] = [] :=
  ⟨rfl, by decide, rfl⟩

/-- C7 (amended): the "no data detected" failure triggers exactly when the
SpO2 *file list* or the heart-rate *file list* is empty, before any further
processing; files that are present but contain no SpO2 rows fail later with
the "no sessions" condition, and SpO2 rows with no heart-rate entries fail
with a `TypeError` during session filtering. -/
theorem c7_no_data_files :
    (∀ (f : Int → Dt) (c j : List (List (Int × Int))), c = [] ∨ j = [] →
      exportSpo2 f c j = .error .noData) ∧
    (∀ (f : Int → Dt) (c j : List (List (Int × Int))), c ≠ [] → j ≠ [] →
      (c.map readCsvRows).flatten = [] →
      exportSpo2 f c j = .error .noSessions) ∧
    (∀ (f : Int → Dt) (c j : List (List (Int × Int))), c ≠ [] → j ≠ [] →
      (c.map readCsvRows).flatten ≠ [] → j.flatten = [] →
      exportSpo2 f c j = .error .typeErr) := by
  refine ⟨?_, ?_, ?_⟩
  · intro f c j h
    rcases h with h | h <;> subst h <;> simp [exportSpo2]
  · intro f c j hc hj hrows
    have hcond : ¬(c.isEmpty = true ∨ j.isEmpty = true) := by
      simp [List.isEmpty_iff, hc, hj]
    have ha : align c j = .error .noSessions := by
      simp only [align]
      rw [hrows]
      simp [segmentSessions]
    simp only [exportSpo2, ha]
    rw [if_neg hcond]
  · intro f c j hc hj hrows hent
    have hcond : ¬(c.isEmpty = true ∨ j.isEmpty = true) := by
      simp [List.isEmpty_iff, hc, hj]
    have ha : align c j = .error .typeErr := by
      simp only [align]
      cases hr : (c.map readCsvRows).flatten with
      | nil => exact absurd hr hrows
      | cons t r =>
        rw [hent]
        simp [List.isEmpty_iff, segmentSessions_ne_nil]
    simp only [exportSpo2, ha]
    rw [if_neg hcond]

/-- C7 witness: the files-empty and rows-empty branches at concrete inputs. -/
theorem c7_no_data_files_witness :
    exportSpo2 dtConst [] [[((0 : Int), (80 : Int))]] = .error .noData ∧
    exportSpo2 dtConst [[], []] [[((0 : Int), (80 : Int))]] = .error .noSessions := by
  constructor
  · exact c7_no_data_files.1 dtConst [] [[((0 : Int), (80 : Int))]] (Or.inl rfl)
  · exact c7_no_data_files.2.1 dtConst [[], []] [[((0 : Int), (80 : Int))]]
      (by simp) (by simp) rfl
